import Mathlib

/-
Verification of the hexahedral trilinear shape-function kernel of GEOS
(src/coreComponents/finiteElement/unitTests/testShapeFunctionKernel.cpp).

The computation is embedded shallowly over ℚ: every floating-point literal of
the source is an exact rational, loops over the fixed node / quadrature /
component counts become sums over Fin 8 and Fin 3 (or their unrolled form when
the source accumulates into a scalar), and the unguarded floating division is
rendered by field division (1/0 = 0).
-/

namespace ShapeKernel

/-- Corner sign table `pCoords` of the test driver (lines 120-124): row `k`
holds the ±1 sign of each of the 8 corners along axis `k`, axis 0 varying
fastest. -/
def pCoords : Fin 3 → Fin 8 → ℚ := fun k a =>
  match k, a with
  | 0, 0 => -1 | 0, 1 => 1 | 0, 2 => -1 | 0, 3 => 1
  | 0, 4 => -1 | 0, 5 => 1 | 0, 6 => -1 | 0, 7 => 1
  | 1, 0 => -1 | 1, 1 => -1 | 1, 2 => 1 | 1, 3 => 1
  | 1, 4 => -1 | 1, 5 => -1 | 1, 6 => 1 | 1, 7 => 1
  | 2, 0 => -1 | 2, 1 => -1 | 2, 2 => -1 | 2, 3 => -1
  | 2, 4 => 1 | 2, 5 => 1 | 2, 6 => 1 | 2, 7 => 1

/-- The quadrature abscissa factor `1.0 / 1.732050807568877293528` of the test
driver (line 126), embedded as the exact rational value of the source literal. -/
def quadratureFactor : ℚ := 1.0 / 1.732050807568877293528

/-- The skewed-hexahedron node coordinates `xCoords` of the test driver
(lines 71-80). -/
def xCoords : Fin 8 → Fin 3 → ℚ := fun a i =>
  match a, i with
  | 0, 0 => -1.1 | 0, 1 => -1.3 | 0, 2 => -1.1
  | 1, 0 => 1.3 | 1, 1 => -1.1 | 1, 2 => -1.2
  | 2, 0 => -1.2 | 2, 1 => 1.1 | 2, 2 => -1.1
  | 3, 0 => 1.1 | 3, 1 => 1.2 | 3, 2 => -1.3
  | 4, 0 => -1.3 | 4, 1 => -1.2 | 4, 2 => 1.1
  | 5, 0 => 1.1 | 5, 1 => -1.3 | 5, 2 => 1.2
  | 6, 0 => -1.2 | 6, 1 => 1.2 | 6, 2 => 1.3
  | 7, 0 => 1.2 | 7, 1 => 1.1 | 7, 2 => 1.1

/-- Reference coordinate of quadrature point `q` (lines 133-135):
`xi[k] = quadratureFactor * pCoords[k][q]`. -/
def xiOfQ (q : Fin 8) : Fin 3 → ℚ := fun k => quadratureFactor * pCoords k q

/-- Trilinear shape value of node `a` at reference coordinate `xi`
(lines 139-141): `N = 0.125 * (1+xi0*s0) * (1+xi1*s1) * (1+xi2*s2)`. -/
def shapeN (xi : Fin 3 → ℚ) (a : Fin 8) : ℚ :=
  0.125 * (1 + xi 0 * pCoords 0 a) * (1 + xi 1 * pCoords 1 a) *
    (1 + xi 2 * pCoords 2 a)

/-- Reference-space partial derivatives `dNdXi` of shape function `a` at `xi`
(lines 148-156). -/
def dNdXi (xi : Fin 3 → ℚ) (a : Fin 8) : Fin 3 → ℚ :=
  ![0.125 * pCoords 0 a * (1 + xi 1 * pCoords 1 a) * (1 + xi 2 * pCoords 2 a),
    0.125 * (1 + xi 0 * pCoords 0 a) * pCoords 1 a * (1 + xi 2 * pCoords 2 a),
    0.125 * (1 + xi 0 * pCoords 0 a) * (1 + xi 1 * pCoords 1 a) * pCoords 2 a]

/-- Jacobian accumulation of the test driver (lines 145-164):
`J[i][j] = sum over the 8 nodes a of coords[a][i] * dNdXi[a][j]`. -/
def jacobian (coords : Fin 8 → Fin 3 → ℚ) (xi : Fin 3 → ℚ) :
    Fin 3 → Fin 3 → ℚ :=
  fun i j => ∑ a : Fin 8, coords a i * dNdXi xi a j

/-- The `scratch` cofactor table of the `inverse` routine (lines 34-42),
entry for entry as written in the source. -/
def invScratch (J : Fin 3 → Fin 3 → ℚ) : Fin 3 → Fin 3 → ℚ :=
  ![![J 1 1 * J 2 2 - J 1 2 * J 2 1,
     J 1 2 * J 2 0 - J 1 0 * J 2 2,
     J 1 0 * J 2 1 - J 1 1 * J 2 0],
    ![J 0 2 * J 2 1 - J 0 1 * J 2 2,
     J 0 0 * J 2 2 - J 0 2 * J 2 0,
     J 0 1 * J 2 0 - J 0 0 * J 2 1],
    ![J 0 1 * J 1 2 - J 0 2 * J 1 1,
     J 0 2 * J 1 0 - J 0 0 * J 1 2,
     J 0 0 * J 1 1 - J 0 1 * J 1 0]]

/-- The reciprocal determinant `invDet` computed by `inverse` (line 43):
`1 / (J[0][0]*scratch[0][0] + J[1][0]*scratch[1][0] + J[2][0]*scratch[2][0])`. -/
def invDetOf (J : Fin 3 → Fin 3 → ℚ) : ℚ :=
  1 / (J 0 0 * invScratch J 0 0 + J 1 0 * invScratch J 1 0 +
    J 2 0 * invScratch J 2 0)

/-- The matrix written back over `J` by `inverse` (lines 45-51):
`J[i][j] = scratch[j][i] * invDet`. -/
def inverseMat (J : Fin 3 → Fin 3 → ℚ) : Fin 3 → Fin 3 → ℚ :=
  fun i j => invScratch J j i * invDetOf J

/-- The whole effect of the `inverse` routine (lines 31-54): the overwritten
matrix paired with the returned scalar `invDet`. -/
def inverse (J : Fin 3 → Fin 3 → ℚ) : (Fin 3 → Fin 3 → ℚ) × ℚ :=
  (inverseMat J, invDetOf J)

/-- The per-quadrature-point determinant of the test driver (line 165):
`detJ = 1 / inverse(J)` with `J` the Jacobian at quadrature point `q`. -/
def detJatQ (coords : Fin 8 → Fin 3 → ℚ) (q : Fin 8) : ℚ :=
  1 / invDetOf (jacobian coords (xiOfQ q))

/-- The physical-gradient loop of the test driver (lines 181-187), unrolled in
source order: `dNdX[i] = ((0 + dNdXi[0]*Jinv[0][i]) + dNdXi[1]*Jinv[1][i]) +
dNdXi[2]*Jinv[2][i]`. -/
def physGrad (Jinv : Fin 3 → Fin 3 → ℚ) (dN : Fin 3 → ℚ) : Fin 3 → ℚ :=
  fun i => 0 + dN 0 * Jinv 0 i + dN 1 * Jinv 1 i + dN 2 * Jinv 2 i

/-- Physical gradient of node `a` at reference coordinate `xi` for the element
`coords`: the reference gradient pushed through the inverted Jacobian, exactly
as the test driver composes lines 145-187. -/
def dNdXphys (coords : Fin 8 → Fin 3 → ℚ) (xi : Fin 3 → ℚ) (a : Fin 8) :
    Fin 3 → ℚ :=
  physGrad (inverseMat (jacobian coords xi)) (dNdXi xi a)

/-- Specification-side determinant: the standard cofactor expansion of a 3x3
matrix along the first row. -/
def det3 (J : Fin 3 → Fin 3 → ℚ) : ℚ :=
  J 0 0 * (J 1 1 * J 2 2 - J 1 2 * J 2 1) -
    J 0 1 * (J 1 0 * J 2 2 - J 1 2 * J 2 0) +
    J 0 2 * (J 1 0 * J 2 1 - J 1 1 * J 2 0)

/-- Specification-side adjugate: the transpose of the cofactor matrix of a 3x3
matrix. -/
def adjugate3 (J : Fin 3 → Fin 3 → ℚ) : Fin 3 → Fin 3 → ℚ :=
  ![![J 1 1 * J 2 2 - J 1 2 * J 2 1,
     J 0 2 * J 2 1 - J 0 1 * J 2 2,
     J 0 1 * J 1 2 - J 0 2 * J 1 1],
    ![J 1 2 * J 2 0 - J 1 0 * J 2 2,
     J 0 0 * J 2 2 - J 0 2 * J 2 0,
     J 0 2 * J 1 0 - J 0 0 * J 1 2],
    ![J 1 0 * J 2 1 - J 1 1 * J 2 0,
     J 0 1 * J 2 0 - J 0 0 * J 2 1,
     J 0 0 * J 1 1 - J 0 1 * J 1 0]]

/-- The 3x3 identity matrix. -/
def idMat : Fin 3 → Fin 3 → ℚ := fun i j => if i = j then 1 else 0

/-- 3x3 matrix product. -/
def matMul (A B : Fin 3 → Fin 3 → ℚ) : Fin 3 → Fin 3 → ℚ :=
  fun i k => ∑ j : Fin 3, A i j * B j k

/-- The regular cube element of the spec's concrete scenario: node `a` sits at
the corner with signs `(pCoords 0 a, pCoords 1 a, pCoords 2 a)`. -/
def cubeCoords : Fin 8 → Fin 3 → ℚ := fun a i => pCoords i a

/-- Lemma: the first-column expansion used by `inverse` (line 43) equals the
first-row cofactor expansion `det3`. -/
lemma colexp_eq_det3 (J : Fin 3 → Fin 3 → ℚ) :
    J 0 0 * invScratch J 0 0 + J 1 0 * invScratch J 1 0 +
      J 2 0 * invScratch J 2 0 = det3 J := by
  simp [invScratch, det3]
  ring

/-- Lemma: the scalar returned by `inverse` is the reciprocal of `det3`. -/
lemma invDetOf_eq (J : Fin 3 → Fin 3 → ℚ) : invDetOf J = 1 / det3 J := by
  rw [invDetOf, colexp_eq_det3]

/-- Lemma: the test driver's `detJ = 1/inverse(J)` recovers the cofactor
determinant of the Jacobian. -/
lemma detJ_eq_det3 (coords : Fin 8 → Fin 3 → ℚ) (q : Fin 8) :
    detJatQ coords q = det3 (jacobian coords (xiOfQ q)) := by
  rw [detJatQ, invDetOf_eq, one_div_one_div]

/-- Lemma: the `scratch` table written back transposed is exactly the adjugate
(transpose of the cofactor matrix). -/
lemma invScratch_transpose (J : Fin 3 → Fin 3 → ℚ) (i j : Fin 3) :
    invScratch J j i = adjugate3 J i j := by
  fin_cases i <;> fin_cases j <;> simp [invScratch, adjugate3]

/-- Lemma: left inverse property of the overwritten matrix. -/
lemma matMul_inverseMat_left (J : Fin 3 → Fin 3 → ℚ) (h : det3 J ≠ 0) :
    matMul (inverseMat J) J = idMat := by
  funext i k
  fin_cases i <;> fin_cases k <;>
    (simp [matMul, inverseMat, invScratch, invDetOf_eq, idMat, Fin.sum_univ_three]
     field_simp
     try simp only [det3]
     try ring)

/-- Lemma: right inverse property of the overwritten matrix. -/
lemma matMul_inverseMat_right (J : Fin 3 → Fin 3 → ℚ) (h : det3 J ≠ 0) :
    matMul J (inverseMat J) = idMat := by
  funext i k
  fin_cases i <;> fin_cases k <;>
    (simp [matMul, inverseMat, invScratch, invDetOf_eq, idMat, Fin.sum_univ_three]
     field_simp
     try simp only [det3]
     try ring)

/-- A sample invertible matrix used to instantiate guarded statements. -/
def sampleJ : Fin 3 → Fin 3 → ℚ := fun i j =>
  match i, j with
  | 0, 0 => 2 | 0, 1 => 1 | 0, 2 => 0
  | 1, 0 => 0 | 1, 1 => 3 | 1, 2 => 1
  | 2, 0 => 1 | 2, 1 => 0 | 2, 2 => 4

/-- Lemma: the sample matrix has determinant 25, hence nonzero. -/
lemma sampleJ_det_ne : det3 sampleJ ≠ 0 := by
  norm_num [det3, sampleJ]

/-- C1: for every element (8 node coordinate vectors) and every quadrature
point `q`, the per-point determinant computed by the kernel path
`detJ = 1/inverse(J)` equals the cofactor-expansion determinant of the matrix
`J[i][j] = sum_a coord[a][i] * dNdXi[a][j]` built from the trilinear reference
derivatives at `q`; it is the raw determinant, with no quadrature-weight
factor. -/
theorem detJ_equals_cofactor_determinant (coords : Fin 8 → Fin 3 → ℚ)
    (q : Fin 8) : detJatQ coords q = det3 (jacobian coords (xiOfQ q)) :=
  detJ_eq_det3 coords q

/-- C2: for every 3x3 matrix with nonzero cofactor-expansion determinant, the
`inverse` routine overwrites its argument with the adjugate scaled by
`1/det`, and the resulting matrix is a two-sided inverse of the input. -/
theorem inverse_is_adjugate_over_det (J0 : Fin 3 → Fin 3 → ℚ)
    (h : det3 J0 ≠ 0) :
    (∀ i j, (inverse J0).1 i j = adjugate3 J0 i j * (1 / det3 J0)) ∧
      matMul ((inverse J0).1) J0 = idMat ∧
      matMul J0 ((inverse J0).1) = idMat := by
  refine ⟨fun i j => ?_, matMul_inverseMat_left J0 h, matMul_inverseMat_right J0 h⟩
  show inverseMat J0 i j = adjugate3 J0 i j * (1 / det3 J0)
  rw [inverseMat, invScratch_transpose, invDetOf_eq]

/-- Witness for C2 at a concrete invertible matrix. -/
theorem inverse_is_adjugate_over_det_witness :
    det3 sampleJ ≠ 0 ∧ matMul ((inverse sampleJ).1) sampleJ = idMat :=
  ⟨sampleJ_det_ne, (inverse_is_adjugate_over_det sampleJ sampleJ_det_ne).2.1⟩

/-- C3: for every inverse Jacobian and every 8x3 reference-derivative matrix,
the gradient-transform loop computes
`dNdX[a][i] = sum_j dNdXi[a][j] * Jinv[j][i]` for every node `a` and
component `i` (right-multiplication by the inverse Jacobian). -/
theorem physical_gradient_chain_rule (Jinv : Fin 3 → Fin 3 → ℚ)
    (dNXi : Fin 8 → Fin 3 → ℚ) (a : Fin 8) (i : Fin 3) :
    physGrad Jinv (dNXi a) i = ∑ j : Fin 3, dNXi a j * Jinv j i := by
  simp [physGrad, Fin.sum_univ_three]

/-- C4: for every reference coordinate, the 8 trilinear shape values
`N_a(xi) = 1/8 (1+s0 xi0)(1+s1 xi1)(1+s2 xi2)` sum to exactly 1
(partition of unity). -/
theorem shape_values_partition_of_unity (xi : Fin 3 → ℚ) :
    ∑ a : Fin 8, shapeN xi a = 1 := by
  simp [Fin.sum_univ_eight, shapeN, pCoords]
  ring

/-- C10: the scalar returned by the `inverse` routine is the reciprocal of the
determinant of its input, so the raw determinant is recovered as
`1/inverse(J)` and the product of the return value with the determinant
is 1. -/
theorem inverse_returns_reciprocal_determinant (J0 : Fin 3 → Fin 3 → ℚ)
    (h : det3 J0 ≠ 0) :
    (inverse J0).2 = 1 / det3 J0 ∧ (inverse J0).2 * det3 J0 = 1 ∧
      1 / (inverse J0).2 = det3 J0 := by
  refine ⟨invDetOf_eq J0, ?_, ?_⟩
  · rw [show (inverse J0).2 = invDetOf J0 from rfl, invDetOf_eq, one_div,
      inv_mul_cancel₀ h]
  · rw [show (inverse J0).2 = invDetOf J0 from rfl, invDetOf_eq,
      one_div_one_div]

/-- Witness for C10 at a concrete invertible matrix. -/
theorem inverse_returns_reciprocal_determinant_witness :
    det3 sampleJ ≠ 0 ∧ (inverse sampleJ).2 * det3 sampleJ = 1 :=
  ⟨sampleJ_det_ne, (inverse_returns_reciprocal_determinant sampleJ sampleJ_det_ne).2.1⟩

/-- Lemma: the 8 reference-derivative vectors sum to the zero vector at every
reference coordinate. -/
lemma sum_dNdXi_zero (xi : Fin 3 → ℚ) (j : Fin 3) :
    ∑ a : Fin 8, dNdXi xi a j = 0 := by
  fin_cases j <;>
    (simp [Fin.sum_univ_eight, dNdXi, pCoords]
     try ring)

/-- Lemma: the node sum of coordinate-gradient outer products is the product
of the Jacobian with the overwritten inverse matrix. -/
lemma sum_outer_eq_matMul (coords : Fin 8 → Fin 3 → ℚ) (xi : Fin 3 → ℚ)
    (i k : Fin 3) :
    ∑ a : Fin 8, coords a i * dNdXphys coords xi a k =
      matMul (jacobian coords xi) (inverseMat (jacobian coords xi)) i k := by
  simp only [dNdXphys, physGrad, matMul, jacobian, Fin.sum_univ_eight,
    Fin.sum_univ_three]
  ring

/-- Lemma: the Jacobian of the regular ±1 cube element is the identity at
every reference coordinate. -/
lemma cube_jacobian (xi : Fin 3 → ℚ) : jacobian cubeCoords xi = idMat := by
  funext i j
  fin_cases i <;> fin_cases j <;>
    (simp [jacobian, cubeCoords, dNdXi, pCoords, idMat, Fin.sum_univ_eight]
     try ring)

/-- Lemma: the cube element's Jacobian determinant is nonzero at every
quadrature point. -/
lemma cube_det_ne (q : Fin 8) : det3 (jacobian cubeCoords (xiOfQ q)) ≠ 0 := by
  rw [cube_jacobian]
  norm_num +decide [det3, idMat]

/-- C5: for every element whose Jacobian at a quadrature point has nonzero
determinant, the node sum of the outer products of node coordinates with
physical gradients is the 3x3 identity there (isoparametric consistency). -/
theorem isoparametric_consistency (coords : Fin 8 → Fin 3 → ℚ) (q : Fin 8)
    (h : det3 (jacobian coords (xiOfQ q)) ≠ 0) (i k : Fin 3) :
    ∑ a : Fin 8, coords a i * dNdXphys coords (xiOfQ q) a k = idMat i k := by
  rw [sum_outer_eq_matMul, matMul_inverseMat_right _ h]

/-- Witness for C5 at the cube element and quadrature point 0. -/
theorem isoparametric_consistency_witness :
    det3 (jacobian cubeCoords (xiOfQ 0)) ≠ 0 ∧
      ∑ a : Fin 8, cubeCoords a 0 * dNdXphys cubeCoords (xiOfQ 0) a 0 =
        idMat 0 0 :=
  ⟨cube_det_ne 0, isoparametric_consistency cubeCoords 0 (cube_det_ne 0) 0 0⟩

/-- C6: for every element whose Jacobian at a quadrature point has nonzero
determinant, the 8 physical-gradient vectors sum to the zero vector there, and
the 8 reference-derivative vectors sum to exactly zero at every reference
coordinate. -/
theorem gradient_of_constant_is_zero (coords : Fin 8 → Fin 3 → ℚ) (q : Fin 8)
    (h : det3 (jacobian coords (xiOfQ q)) ≠ 0) :
    (∀ i, ∑ a : Fin 8, dNdXphys coords (xiOfQ q) a i = 0) ∧
      ∀ (xi : Fin 3 → ℚ) (j : Fin 3), ∑ a : Fin 8, dNdXi xi a j = 0 := by
  refine ⟨fun i => ?_, fun xi j => sum_dNdXi_zero xi j⟩
  have e : ∑ a : Fin 8, dNdXphys coords (xiOfQ q) a i =
      (∑ a : Fin 8, dNdXi (xiOfQ q) a 0) *
          inverseMat (jacobian coords (xiOfQ q)) 0 i +
        (∑ a : Fin 8, dNdXi (xiOfQ q) a 1) *
          inverseMat (jacobian coords (xiOfQ q)) 1 i +
        (∑ a : Fin 8, dNdXi (xiOfQ q) a 2) *
          inverseMat (jacobian coords (xiOfQ q)) 2 i := by
    simp only [dNdXphys, physGrad, Fin.sum_univ_eight]
    ring
  rw [e, sum_dNdXi_zero, sum_dNdXi_zero, sum_dNdXi_zero]
  ring

/-- Witness for C6 at the cube element and quadrature point 0. -/
theorem gradient_of_constant_is_zero_witness :
    det3 (jacobian cubeCoords (xiOfQ 0)) ≠ 0 ∧
      ∑ a : Fin 8, dNdXphys cubeCoords (xiOfQ 0) a 0 = 0 :=
  ⟨cube_det_ne 0, (gradient_of_constant_is_zero cubeCoords 0 (cube_det_ne 0)).1 0⟩

/-- Lemma: inverting the identity matrix gives back the identity. -/
lemma inverseMat_idMat : inverseMat idMat = idMat := by
  funext i j
  fin_cases i <;> fin_cases j <;>
    norm_num +decide [inverseMat, invScratch, invDetOf, idMat]

/-- C7: for the regular cube element with nodes at all 8 sign combinations
(±1, ±1, ±1) in canonical corner order, the Jacobian is the identity at each
of the 8 quadrature points, the computed determinant equals 1, and every
physical gradient equals the corresponding reference gradient. -/
theorem unit_cube_identity_jacobian (q : Fin 8) :
    jacobian cubeCoords (xiOfQ q) = idMat ∧ detJatQ cubeCoords q = 1 ∧
      ∀ a : Fin 8, dNdXphys cubeCoords (xiOfQ q) a = dNdXi (xiOfQ q) a := by
  refine ⟨cube_jacobian _, ?_, fun a => ?_⟩
  · rw [detJ_eq_det3, cube_jacobian]
    norm_num +decide [det3, idMat]
  · funext i
    rw [dNdXphys, cube_jacobian, inverseMat_idMat]
    fin_cases i <;>
      (simp +decide [physGrad, idMat]
       try ring)

/-- The axis-0 corner flip on node indices: each corner is exchanged with the
corner whose axis-0 sign is negated (axis 0 varies fastest in the canonical
corner order). -/
def mirror0 : Fin 8 → Fin 8 := fun a =>
  match a with
  | 0 => 1 | 1 => 0 | 2 => 3 | 3 => 2 | 4 => 5 | 5 => 4 | 6 => 7 | 7 => 6

/-- An element with its node coordinates permuted by the axis-0 corner flip. -/
def flipAxis0 (coords : Fin 8 → Fin 3 → ℚ) : Fin 8 → Fin 3 → ℚ :=
  fun a => coords (mirror0 a)

/-- Reference coordinate with its axis-0 component negated. -/
def negXi0 (xi : Fin 3 → ℚ) : Fin 3 → ℚ := fun k => if k = 0 then -xi 0 else xi k

/-- Lemma: the Jacobian of the axis-0-flipped element at `xi` is the Jacobian
of the original element at the axis-0-mirrored reference coordinate, with its
column 0 negated. -/
lemma jacobian_flip (coords : Fin 8 → Fin 3 → ℚ) (xi : Fin 3 → ℚ)
    (i j : Fin 3) :
    jacobian (flipAxis0 coords) xi i j =
      (if j = 0 then -1 else 1) * jacobian coords (negXi0 xi) i j := by
  fin_cases j <;>
    (simp +decide [jacobian, flipAxis0, Fin.sum_univ_eight, mirror0, dNdXi,
      pCoords, negXi0]
     ring)

/-- Lemma: flipping axis 0 of the element negates the cofactor determinant of
the Jacobian, evaluated at the mirrored reference coordinate. -/
lemma det3_flip (coords : Fin 8 → Fin 3 → ℚ) (xi : Fin 3 → ℚ) :
    det3 (jacobian (flipAxis0 coords) xi) =
      -det3 (jacobian coords (negXi0 xi)) := by
  simp only [det3, jacobian_flip]
  norm_num +decide
  ring

/-- Lemma: negating axis 0 of a quadrature point gives the quadrature point
with the axis-0-mirrored index. -/
lemma negXi0_xiOfQ (q : Fin 8) : negXi0 (xiOfQ q) = xiOfQ (mirror0 q) := by
  funext k
  fin_cases q <;> fin_cases k <;>
    (simp +decide [negXi0, xiOfQ, pCoords, mirror0]
     try ring)

/-- C8 counterexample: on the test fixture element, the axis-0 corner flip
does not negate the computed determinant at the same quadrature point 0. -/
theorem axis_flip_same_point_counterexample :
    detJatQ (flipAxis0 xCoords) 0 ≠ -detJatQ xCoords 0 := by
  rw [detJ_eq_det3, detJ_eq_det3]
  norm_num +decide [det3, jacobian, Fin.sum_univ_eight, dNdXi, flipAxis0,
    mirror0, xCoords, pCoords, xiOfQ, quadratureFactor]

/-- C8 amended: for every element and quadrature point, the determinant of the
axis-0-flipped element at quadrature point `q` equals the negated determinant
of the original element at the axis-0-mirrored quadrature point
`mirror0 q`; over a whole symmetric quadrature set the determinants are
negated as a set, but not pointwise at the same index. -/
theorem axis_flip_negates_det_at_mirrored_point (coords : Fin 8 → Fin 3 → ℚ)
    (q : Fin 8) :
    detJatQ (flipAxis0 coords) q = -detJatQ coords (mirror0 q) := by
  rw [detJ_eq_det3, detJ_eq_det3, det3_flip, negXi0_xiOfQ]

/-- Total embedding of `inverse` with guarded division: it signals `none`
exactly when the division at line 43 would divide by a zero
first-column cofactor expansion; otherwise it returns what `inverse`
returns. -/
def inverseChecked (J : Fin 3 → Fin 3 → ℚ) :
    Option ((Fin 3 → Fin 3 → ℚ) × ℚ) :=
  if J 0 0 * invScratch J 0 0 + J 1 0 * invScratch J 1 0 +
      J 2 0 * invScratch J 2 0 = 0 then none
  else some (inverseMat J, invDetOf J)

/-- C9: the `inverse` routine divides unconditionally, with no branch on the
determinant; in a total embedding with guarded division, the
division-by-zero branch is taken exactly when the determinant is zero, so it
is unreachable precisely under the precondition `det J ≠ 0`, and no
nonsingular input is rejected or signalled. -/
theorem inversion_unguarded_division (J : Fin 3 → Fin 3 → ℚ) :
    (inverseChecked J = none ↔ det3 J = 0) ∧
      (det3 J ≠ 0 → inverseChecked J = some (inverse J)) := by
  constructor
  · simp only [inverseChecked, colexp_eq_det3]
    split_ifs with hd <;> simp [hd]
  · intro h
    simp only [inverseChecked, colexp_eq_det3, if_neg h]
    rfl

/-- Witness for C9 at a concrete nonsingular matrix. -/
theorem inversion_unguarded_division_witness :
    det3 sampleJ ≠ 0 ∧ inverseChecked sampleJ = some (inverse sampleJ) :=
  ⟨sampleJ_det_ne, (inversion_unguarded_division sampleJ).2 sampleJ_det_ne⟩

end ShapeKernel
